import Mathlib

/-! Verification of the Load-Balancer core: the consistent-hash ring
(src/core/consistent_hash.py), the server pool (src/core/load_balancer.py),
the pluggable hash functions (src/utils/hashing.py) and the health-check
hysteresis loop (src/utils/health_check.py), shallowly embedded in Lean.

Modelling conventions: Python dicts become insertion-ordered association
lists (`dictLookup` / `dictInsert` / `dictPop` mirror `d[k]`, `d[k] = v`
and `d.pop(k)`), Python lists become Lean lists, Python ints become
`Int` / `Nat`, float response times become `Rat`, and code that can raise
returns `Option` (`none` marks the raised exception).  The Python classes
store the hash function in the instance (`self.hash_func`); here it is
passed explicitly to each operation, which is equivalent for a fixed
instance. -/

/-- Python `d[k]` / `d.get(k)`: value of the first binding of `k`. -/
def dictLookup {α β : Type} [DecidableEq α] (k : α) : List (α × β) → Option β
  | [] => none
  | (k₁, v) :: rest => if k₁ = k then some v else dictLookup k rest

/-- Python `k in d`. -/
def dictContains {α β : Type} [DecidableEq α] (k : α) (l : List (α × β)) : Bool :=
  (dictLookup k l).isSome

/-- Python `d[k] = v`: update the existing binding in place, else append
a new binding at the end (insertion order, as CPython dicts do). -/
def dictInsert {α β : Type} [DecidableEq α] (k : α) (v : β) : List (α × β) → List (α × β)
  | [] => [(k, v)]
  | (k₁, v₁) :: rest =>
    if k₁ = k then (k₁, v) :: rest else (k₁, v₁) :: dictInsert k v rest

/-- Python `d.pop(k)` with no default: remove the binding of `k`,
`none` models the `KeyError` raised when `k` is absent. -/
def dictPop {α β : Type} [DecidableEq α] (k : α) : List (α × β) → Option (List (α × β))
  | [] => none
  | (k₁, v₁) :: rest =>
    if k₁ = k then some rest else (dictPop k rest).map (fun l => (k₁, v₁) :: l)

/-- Python `lst.remove(x)`: delete the first occurrence of `x`,
`none` models the `ValueError` raised when `x` is absent. -/
def listRemove (x : Nat) : List Nat → Option (List Nat)
  | [] => none
  | y :: ys => if y = x then some ys else (listRemove x ys).map (fun l => y :: l)

/-- Python `bisect.insort(lst, x)` on an ascending list: insert `x` after
any elements equal to it, preserving the ascending order. -/
def insort (x : Nat) : List Nat → List Nat
  | [] => [x]
  | y :: ys => if x < y then x :: y :: ys else y :: insort x ys

/-- Python `bisect.bisect_left(lst, x)` on an ascending list: the number of
elements strictly below `x`, which is the leftmost insertion point. -/
def bisect_left (x : Nat) (l : List Nat) : Nat :=
  l.countP (fun y => decide (y < x))

/-- State of `ConsistentHash` (consistent_hash.py lines 21-31):
`ring` maps hash value to owning node, `sorted_keys` is the ascending list
of hash values, `nodes` maps node name to its list of virtual hash values. -/
structure ConsistentHash where
  ring : List (Nat × String)
  sorted_keys : List Nat
  nodes : List (String × List Nat)
deriving DecidableEq, Repr

/-- `ConsistentHash.__init__`: all three containers start empty. -/
def ConsistentHash.init : ConsistentHash := ⟨[], [], []⟩

/-- The virtual-node name `f"{node_name}:{i}"` (consistent_hash.py line 49). -/
def virtualName (node_name : String) (i : Nat) : String :=
  node_name ++ ":" ++ toString i

/-- The hash values of the `weight * 100` virtual points generated for a
node (consistent_hash.py lines 48-50); `range` of a non-positive bound is
empty, hence `Int.toNat`. -/
def virtual_hashes (hash_func : String → Nat) (node_name : String) (weight : Int) : List Nat :=
  (List.range (weight * 100).toNat).map (fun i => hash_func (virtualName node_name i))

/-- One iteration of the `add_node` loop body (consistent_hash.py lines 49-54):
`self.ring[hash_value] = node_name`, `self.nodes[node_name].append(hash_value)`,
`bisect.insort(self.sorted_keys, hash_value)`. -/
def ConsistentHash.addPoint (node_name : String) (s : ConsistentHash) (hash_value : Nat) :
    ConsistentHash :=
  { ring := dictInsert hash_value node_name s.ring
    sorted_keys := insort hash_value s.sorted_keys
    nodes := dictInsert node_name
      (((dictLookup node_name s.nodes).getD []) ++ [hash_value]) s.nodes }

/-- `ConsistentHash.add_node` (consistent_hash.py lines 33-54): no-op when the
name is already present; otherwise initialise `nodes[node_name] = []` and
insert one virtual point for each `i in range(weight * 100)`. -/
def ConsistentHash.add_node (hash_func : String → Nat) (s : ConsistentHash)
    (node_name : String) (weight : Int) : ConsistentHash :=
  if dictContains node_name s.nodes then s
  else
    (virtual_hashes hash_func node_name weight).foldl
      (ConsistentHash.addPoint node_name)
      { s with nodes := dictInsert node_name [] s.nodes }

/-- The `remove_node` loop (consistent_hash.py lines 67-69): pop every
recorded hash value from `ring` and delete it from `sorted_keys`;
`none` models the `KeyError` / `ValueError` raised when a value is absent
(which happens when virtual points collided). -/
def popAll : List Nat → List (Nat × String) → List Nat →
    Option (List (Nat × String) × List Nat)
  | [], ring, sorted => some (ring, sorted)
  | h :: hs, ring, sorted =>
    match dictPop h ring with
    | none => none
    | some ring₁ =>
      match listRemove h sorted with
      | none => none
      | some sorted₁ => popAll hs ring₁ sorted₁

/-- `ConsistentHash.remove_node` (consistent_hash.py lines 56-72): no-op when
the name is absent; otherwise delete every owned hash value from `ring` and
`sorted_keys`, then pop the name from `nodes`. `none` = an exception raised. -/
def ConsistentHash.remove_node (s : ConsistentHash) (node_name : String) :
    Option ConsistentHash :=
  match dictLookup node_name s.nodes with
  | none => some s
  | some hashes =>
    match popAll hashes s.ring s.sorted_keys with
    | none => none
    | some (ring₁, sorted₁) =>
      match dictPop node_name s.nodes with
      | none => none
      | some nodes₁ => some ⟨ring₁, sorted₁, nodes₁⟩

/-- `ConsistentHash.get_node` (consistent_hash.py lines 74-92): `some none`
is Python returning `None` on an empty ring; `some (some n)` is a resolved
node; the outer `none` marks the `KeyError` that the Python raises when
`sorted_keys` holds a value missing from `ring` (possible only in states
corrupted by virtual-point collisions). -/
def ConsistentHash.get_node (hash_func : String → Nat) (s : ConsistentHash)
    (key : String) : Option (Option String) :=
  if s.ring.isEmpty then some none
  else
    match s.sorted_keys.get?
        (bisect_left (hash_func key) s.sorted_keys % s.sorted_keys.length) with
    | none => none
    | some ring_key =>
      match dictLookup ring_key s.ring with
      | none => none
      | some node => some (some node)

/-- The collection loop of `get_nodes` (consistent_hash.py lines 118-124):
walk the ring positions `idx, idx+1, ...` (wrapping), appending each owner
not yet collected, stopping once `count` distinct owners are gathered.
The `visited` set of the source always equals the set of collected names,
so membership in the accumulator models it. `none` marks a `KeyError`. -/
def collectNodes (s : ConsistentHash) (idx : Nat) (count : Int) :
    List Nat → List String → Option (List String)
  | [], acc => some acc
  | i :: is, acc =>
    match s.sorted_keys.get? ((idx + i) % s.sorted_keys.length) with
    | none => none
    | some ring_key =>
      match dictLookup ring_key s.ring with
      | none => none
      | some node =>
        if node ∈ acc then collectNodes s idx count is acc
        else
          let acc₁ := acc ++ [node]
          if count ≤ (acc₁.length : Int) then some acc₁
          else collectNodes s idx count is acc₁

/-- `ConsistentHash.get_nodes` (consistent_hash.py lines 94-126): clamp
`count` to the number of distinct owners, start at the same ring index as
`get_node`, and collect distinct owners in ring order. -/
def ConsistentHash.get_nodes (hash_func : String → Nat) (s : ConsistentHash)
    (key : String) (count : Int) : Option (List String) :=
  if s.ring.isEmpty || count ≤ 0 then some []
  else
    let distinct : Int := ((s.ring.map Prod.snd).dedup.length : Int)
    let count₁ := if distinct < count then distinct else count
    let hash_value := hash_func key
    let idx := bisect_left hash_value s.sorted_keys % s.sorted_keys.length
    collectNodes s idx count₁ (List.range s.sorted_keys.length) []

/-- `Server` (load_balancer.py lines 19-78).  The wall-clock
`last_health_check` timestamp is outside the model; every other field is
kept.  Response times are Python floats, modelled as rationals. -/
structure Server where
  name : String
  address : String
  port : Int
  weight : Int
  healthy : Bool
  request_count : Nat
  error_count : Nat
  response_times : List Rat
deriving DecidableEq, Repr

/-- `Server.__init__` (load_balancer.py lines 27-45): healthy by default,
all metrics zero. -/
def Server.init (name address : String) (port : Int) (weight : Int) : Server :=
  { name := name, address := address, port := port, weight := weight
    healthy := true, request_count := 0, error_count := 0, response_times := [] }

/-- `Server.record_request` (load_balancer.py lines 62-74): increment the
request count; when a duration is supplied append it and evict the oldest
sample past capacity 100. -/
def Server.record_request (s : Server) (response_time : Option Rat) : Server :=
  let s₁ := { s with request_count := s.request_count + 1 }
  match response_time with
  | none => s₁
  | some rt =>
    let times := s₁.response_times ++ [rt]
    { s₁ with response_times := if 100 < times.length then times.drop 1 else times }

/-- `Server.record_error` (load_balancer.py lines 76-78). -/
def Server.record_error (s : Server) : Server :=
  { s with error_count := s.error_count + 1 }

/-- `LoadBalancer` state (load_balancer.py lines 92-103): a `ConsistentHash`
and the name → `Server` mapping.  The lock and the background
health-checker thread are concurrency machinery outside the model. -/
structure LoadBalancer where
  consistent_hash : ConsistentHash
  servers : List (String × Server)
deriving DecidableEq, Repr

/-- `LoadBalancer.add_server` (load_balancer.py lines 105-122):
`self.servers[server.name] = server` stores the given record wholesale
(replacing any existing record of that name), then
`self.consistent_hash.add_node(server.name, server.weight)` is invoked
(a no-op when the name is already on the ring). -/
def LoadBalancer.add_server (hash_func : String → Nat) (lb : LoadBalancer)
    (server : Server) : LoadBalancer :=
  { consistent_hash :=
      ConsistentHash.add_node hash_func lb.consistent_hash server.name server.weight
    servers := dictInsert server.name server lb.servers }

/-- `LoadBalancer.get_server` (load_balancer.py lines 144-170): resolve the
key on the ring; return `None` when the ring is empty, when the resolved
name is falsy (`not server_name`, true of the empty string) or when it is
not a key of `self.servers`; return the server when healthy; otherwise walk
`get_nodes(key, len(self.servers))` and return the first healthy candidate,
else `None`.  Outer `none` marks a propagated exception. -/
def LoadBalancer.get_server (hash_func : String → Nat) (lb : LoadBalancer)
    (key : String) : Option (Option Server) :=
  match ConsistentHash.get_node hash_func lb.consistent_hash key with
  | none => none
  | some none => some none
  | some (some server_name) =>
    if server_name = "" then some none
    else
      match dictLookup server_name lb.servers with
      | none => some none
      | some server =>
        if server.healthy then some (some server)
        else
          match ConsistentHash.get_nodes hash_func lb.consistent_hash key
              ((lb.servers.length : Int)) with
          | none => none
          | some names =>
            some (names.findSome? (fun name =>
              match dictLookup name lb.servers with
              | none => none
              | some sv => if sv.healthy then some sv else none))

/-- The dictionary returned by `LoadBalancer.get_stats`
(load_balancer.py lines 268-275), as a record. -/
structure LoadBalancerStats where
  total_servers : Nat
  healthy_servers : Nat
  unhealthy_servers : Nat
  total_requests : Nat
  total_errors : Nat
  error_rate : Rat
deriving DecidableEq, Repr

/-- `LoadBalancer.get_stats` (load_balancer.py lines 256-275).  The float
division `total_errors / total_requests` is exact rational division here;
the `if total_requests > 0 else 0` guard is kept verbatim. -/
def LoadBalancer.get_stats (lb : LoadBalancer) : LoadBalancerStats :=
  let values := lb.servers.map Prod.snd
  let total_requests := (values.map Server.request_count).sum
  let total_errors := (values.map Server.error_count).sum
  let healthy_count := (values.filter (fun s => s.healthy)).length
  { total_servers := lb.servers.length
    healthy_servers := healthy_count
    unhealthy_servers := lb.servers.length - healthy_count
    total_requests := total_requests
    total_errors := total_errors
    error_rate := if 0 < total_requests then (total_errors : Rat) / (total_requests : Rat) else 0 }

/-- `simple_hash` (hashing.py lines 18-33): the sum of the character
ordinals, with no modulus. -/
def simple_hash (key : String) : Nat :=
  (key.data.map Char.toNat).sum

/-- `djb2_hash` (hashing.py lines 36-49): `hash * 33 + c` accumulated
unbounded, masked to 32 bits only at the end. -/
def djb2_hash (key : String) : Nat :=
  (key.data.foldl (fun h c => ((h <<< 5) + h) + c.toNat) 5381) &&& 0xFFFFFFFF

/-- `fnv1a_hash` (hashing.py lines 52-70): xor then multiply, masked to
32 bits at every step. -/
def fnv1a_hash (key : String) : Nat :=
  key.data.foldl (fun h c => ((h ^^^ c.toNat) * 16777619) &&& 0xFFFFFFFF) 2166136261

/-- The keys of the `hash_functions` dict in `get_hash_function`
(hashing.py lines 180-191); `murmur3` is present only when the optional
`mmh3` import succeeded. -/
def hash_function_names (mmh3_available : Bool) : List String :=
  ["simple", "djb2", "fnv1a", "md5", "sha1", "crc32"] ++
    (if mmh3_available then ["murmur3"] else [])

/-- `get_hash_function` (hashing.py lines 167-196): unknown names raise
`ValueError`, known names return the registered function.  The bodies of
`md5`, `sha1`, `crc32` and `murmur3` wrap external libraries (hashlib,
zlib, mmh3) and are not embedded, so the returned value is reduced to the
unit; the success / error behaviour depends only on the key set, which is
embedded verbatim. -/
def get_hash_function (mmh3_available : Bool) (name : String) : Except String Unit :=
  if name ∈ hash_function_names mmh3_available then Except.ok ()
  else Except.error ("Hash function not found: " ++ name)

/-- The thresholds of `HealthChecker.__init__` (health_check.py lines 65-84);
defaults are `healthy_threshold = 2`, `unhealthy_threshold = 3`. -/
structure HealthChecker where
  healthy_threshold : Int
  unhealthy_threshold : Int
deriving DecidableEq, Repr

/-- The notification invoked by the check loop: `_on_server_healthy` or
`_on_server_unhealthy` (health_check.py lines 290-310). -/
inductive HealthNotification
  | server_healthy
  | server_unhealthy
deriving DecidableEq, Repr

/-- `HealthChecker.add_server` initialises the per-server counters to
`(healthy_count, unhealthy_count) = (0, 0)` (health_check.py line 116). -/
def initial_counters : Nat × Nat := (0, 0)

/-- One tick of the check loop for one server (health_check.py lines
156-171): a healthy result increments `healthy_count` and zeroes
`unhealthy_count`, a failed result does the reverse; then
`_on_server_healthy` is invoked when `healthy_count >= healthy_threshold`,
`elif` `_on_server_unhealthy` when `unhealthy_count >= unhealthy_threshold`. -/
def check_tick (hc : HealthChecker) (result_is_healthy : Bool) (counters : Nat × Nat) :
    (Nat × Nat) × Option HealthNotification :=
  let counters₁ :=
    if result_is_healthy then (counters.1 + 1, 0) else (0, counters.2 + 1)
  let notif : Option HealthNotification :=
    if hc.healthy_threshold ≤ (counters₁.1 : Int) then some .server_healthy
    else if hc.unhealthy_threshold ≤ (counters₁.2 : Int) then some .server_unhealthy
    else none
  (counters₁, notif)

/-- Iterated ticks of the check loop for one server: the final counters and
the notification (if any) emitted at each tick, in order. -/
def run_ticks (hc : HealthChecker) (counters : Nat × Nat) :
    List Bool → (Nat × Nat) × List (Option HealthNotification)
  | [] => (counters, [])
  | r :: rs =>
    let step := check_tick hc r counters
    let rest := run_ticks hc step.1 rs
    (rest.1, step.2 :: rest.2)

/-- A ring operation, for quantifying over operation sequences. -/
inductive RingOp
  | addNode (node_name : String) (weight : Int)
  | removeNode (node_name : String)
deriving DecidableEq, Repr

/-- Decidable collision-freedom of one `add_node` call in a given state:
the virtual-point hash values about to be inserted are pairwise distinct
and absent from the current ring. -/
def collisionFree (hash_func : String → Nat) (s : ConsistentHash)
    (node_name : String) (weight : Int) : Bool :=
  let hs := virtual_hashes hash_func node_name weight
  decide hs.Nodup && decide (∀ h ∈ hs, h ∉ s.ring.map Prod.fst)

/-- Run a sequence of ring operations, checking every `add_node` for
collision-freedom; `none` when a check fails or `remove_node` raises. -/
def applyOpsOk (hash_func : String → Nat) : ConsistentHash → List RingOp →
    Option ConsistentHash
  | s, [] => some s
  | s, .addNode n w :: ops =>
    if collisionFree hash_func s n w then
      applyOpsOk hash_func (ConsistentHash.add_node hash_func s n w) ops
    else none
  | s, .removeNode n :: ops =>
    match ConsistentHash.remove_node s n with
    | none => none
    | some s₁ => applyOpsOk hash_func s₁ ops

/-! Association-list and sorted-list lemmas -/

theorem dictLookup_eq_none {α β : Type} [DecidableEq α] (k : α) (l : List (α × β)) :
    dictLookup k l = none ↔ k ∉ l.map Prod.fst := by
  induction l with
  | nil => simp [dictLookup]
  | cons p rest ih =>
    obtain ⟨k₁, v₁⟩ := p
    by_cases h : k₁ = k
    · subst h
      simp [dictLookup]
    · have h' : ¬ k = k₁ := fun he => h he.symm
      simp only [dictLookup, if_neg h, List.map_cons, List.mem_cons, ih, not_or]
      tauto

theorem dictContains_eq_false {α β : Type} [DecidableEq α] (k : α) (l : List (α × β)) :
    dictContains k l = false ↔ k ∉ l.map Prod.fst := by
  rw [← dictLookup_eq_none]
  cases h : dictLookup k l <;> simp [dictContains, h]

theorem dictLookup_dictInsert_self {α β : Type} [DecidableEq α] (k : α) (v : β)
    (l : List (α × β)) : dictLookup k (dictInsert k v l) = some v := by
  induction l with
  | nil => simp [dictInsert, dictLookup]
  | cons p rest ih =>
    obtain ⟨k₁, v₁⟩ := p
    by_cases h : k₁ = k <;> simp [dictInsert, dictLookup, h, ih]

theorem dictInsert_of_not_mem {α β : Type} [DecidableEq α] {k : α} (v : β)
    {l : List (α × β)} (h : k ∉ l.map Prod.fst) : dictInsert k v l = l ++ [(k, v)] := by
  induction l with
  | nil => simp [dictInsert]
  | cons p rest ih =>
    obtain ⟨k₁, v₁⟩ := p
    simp only [List.map_cons, List.mem_cons] at h
    push_neg at h
    simp [dictInsert, Ne.symm h.1, ih h.2]

theorem dictLookup_append_of_not_mem {α β : Type} [DecidableEq α] {k : α}
    {A : List (α × β)} (B : List (α × β)) (h : k ∉ A.map Prod.fst) :
    dictLookup k (A ++ B) = dictLookup k B := by
  induction A with
  | nil => simp
  | cons p rest ih =>
    obtain ⟨k₁, v₁⟩ := p
    simp only [List.map_cons, List.mem_cons] at h
    push_neg at h
    simp [dictLookup, Ne.symm h.1, ih h.2]

theorem dictInsert_append_of_not_mem {α β : Type} [DecidableEq α] {k : α} (v : β)
    {A : List (α × β)} (B : List (α × β)) (h : k ∉ A.map Prod.fst) :
    dictInsert k v (A ++ B) = A ++ dictInsert k v B := by
  induction A with
  | nil => simp
  | cons p rest ih =>
    obtain ⟨k₁, v₁⟩ := p
    simp only [List.map_cons, List.mem_cons] at h
    push_neg at h
    simp [dictInsert, Ne.symm h.1, ih h.2]

theorem dictPop_split {α β : Type} [DecidableEq α] {k : α} {v : β} {l : List (α × β)}
    (hnd : (l.map Prod.fst).Nodup) (hl : dictLookup k l = some v) :
    ∃ A B, l = A ++ (k, v) :: B ∧ k ∉ A.map Prod.fst ∧ k ∉ B.map Prod.fst ∧
      dictPop k l = some (A ++ B) := by
  induction l with
  | nil => simp [dictLookup] at hl
  | cons p rest ih =>
    obtain ⟨k₁, v₁⟩ := p
    simp only [List.map_cons, List.nodup_cons] at hnd
    by_cases h : k₁ = k
    · subst h
      have hv : v₁ = v := by simpa [dictLookup] using hl
      subst hv
      exact ⟨[], rest, by simp, by simp, hnd.1, by simp [dictPop]⟩
    · rw [dictLookup, if_neg h] at hl
      obtain ⟨A, B, hsplit, hA, hB, hpop⟩ := ih hnd.2 hl
      refine ⟨(k₁, v₁) :: A, B, by simp [hsplit], ?_, hB, ?_⟩
      · simp only [List.map_cons, List.mem_cons, not_or]
        exact ⟨fun he => h he.symm, hA⟩
      · simp [dictPop, h, hpop]

theorem listRemove_of_mem {x : Nat} {l : List Nat} (h : x ∈ l) :
    listRemove x l = some (l.erase x) := by
  induction l with
  | nil => simp at h
  | cons y ys ih =>
    by_cases hy : y = x
    · subst hy
      simp [listRemove, List.erase_cons]
    · have hx : x ∈ ys := by
        rcases List.mem_cons.mp h with h₁ | h₁
        · exact absurd h₁.symm hy
        · exact h₁
      simp [listRemove, hy, List.erase_cons, ih hx, Ne.symm hy]

theorem insort_perm (x : Nat) (l : List Nat) : (insort x l).Perm (x :: l) := by
  induction l with
  | nil => simp [insort]
  | cons y ys ih =>
    by_cases h : x < y
    · simp [insort, h]
    · simp only [insort, if_neg h]
      exact (ih.cons y).trans (List.Perm.swap x y ys)

theorem mem_insort {a x : Nat} {l : List Nat} : a ∈ insort x l ↔ a = x ∨ a ∈ l := by
  rw [(insort_perm x l).mem_iff, List.mem_cons]

theorem insort_pairwise_lt {x : Nat} {l : List Nat}
    (hl : l.Pairwise (· < ·)) (hx : x ∉ l) : (insort x l).Pairwise (· < ·) := by
  induction l with
  | nil => simp [insort]
  | cons y ys ih =>
    simp only [List.mem_cons, not_or] at hx
    rw [List.pairwise_cons] at hl
    rw [insort]
    by_cases h : x < y
    · rw [if_pos h]
      refine List.pairwise_cons.mpr ⟨?_, List.pairwise_cons.mpr hl⟩
      intro b hb
      rcases List.mem_cons.mp hb with h₁ | h₁
      · omega
      · exact h.trans (hl.1 b h₁)
    · rw [if_neg h]
      have hne : x ≠ y := hx.1
      have hyx : y < x := by omega
      refine List.pairwise_cons.mpr ⟨?_, ih hl.2 hx.2⟩
      intro b hb
      rcases mem_insort.mp hb with h₁ | h₁
      · omega
      · exact hl.1 b h₁

theorem map_fst_filter_key {β : Type} (q : Nat → Bool) (l : List (Nat × β)) :
    (l.filter (fun p => q p.1)).map Prod.fst = (l.map Prod.fst).filter q := by
  induction l with
  | nil => rfl
  | cons p rest ih =>
    by_cases h : q p.1 <;> simp [List.filter_cons, h, ih]

theorem erase_eq_filter_decide {l : List Nat} (h : Nat) (hnd : l.Nodup) :
    l.erase h = l.filter (fun x => decide (x ≠ h)) := by
  rw [hnd.erase_eq_filter h]
  exact List.filter_congr (fun a _ => by by_cases hh : a = h <;> simp [hh])

theorem dictPop_eq_filter {β : Type} {k : Nat} {l : List (Nat × β)}
    (hnd : (l.map Prod.fst).Nodup) (hk : k ∈ l.map Prod.fst) :
    dictPop k l = some (l.filter (fun p => decide (p.1 ≠ k))) := by
  have hne : dictLookup k l ≠ none := fun h => (dictLookup_eq_none k l).mp h hk
  obtain ⟨v, hv⟩ := Option.ne_none_iff_exists'.mp hne
  obtain ⟨A, B, hsplit, hA, hB, hpop⟩ := dictPop_split hnd hv
  rw [hpop]
  subst hsplit
  have hfA : A.filter (fun p => decide (p.1 ≠ k)) = A :=
    List.filter_eq_self.mpr (fun p hp => by
      have hmem : p.1 ∈ A.map Prod.fst := List.mem_map_of_mem Prod.fst hp
      simp only [decide_eq_true_eq]
      exact fun he => hA (he ▸ hmem))
  have hfB : B.filter (fun p => decide (p.1 ≠ k)) = B :=
    List.filter_eq_self.mpr (fun p hp => by
      have hmem : p.1 ∈ B.map Prod.fst := List.mem_map_of_mem Prod.fst hp
      simp only [decide_eq_true_eq]
      exact fun he => hB (he ▸ hmem))
  rw [List.filter_append, hfA, List.filter_cons, if_neg (by simp), hfB]

theorem popAll_eq_filter (hs : List Nat) :
    ∀ (ring : List (Nat × String)) (sorted : List Nat),
      (ring.map Prod.fst).Nodup → hs.Nodup →
      (∀ h ∈ hs, h ∈ ring.map Prod.fst) → sorted.Perm (ring.map Prod.fst) →
      popAll hs ring sorted =
        some (ring.filter (fun p => decide (p.1 ∉ hs)),
          sorted.filter (fun x => decide (x ∉ hs))) := by
  induction hs with
  | nil =>
    intro ring sorted _ _ _ _
    simp [popAll]
  | cons h hs ih =>
    intro ring sorted hnd hhs hmem hperm
    obtain ⟨hnotin, hhs₂⟩ := List.nodup_cons.mp hhs
    have hkmem : h ∈ ring.map Prod.fst := hmem h (List.mem_cons_self h hs)
    have hsmem : h ∈ sorted := hperm.symm.subset hkmem
    have hsortnd : sorted.Nodup := hnd.perm hperm.symm
    rw [popAll, dictPop_eq_filter hnd hkmem, listRemove_of_mem hsmem,
      erase_eq_filter_decide h hsortnd]
    have hmf : (List.filter (fun p => decide (p.1 ≠ h)) ring).map Prod.fst
        = (ring.map Prod.fst).filter (fun x => decide (x ≠ h)) :=
      map_fst_filter_key (fun x => decide (x ≠ h)) ring
    have step := ih (ring.filter (fun p => decide (p.1 ≠ h)))
      (sorted.filter (fun x => decide (x ≠ h)))
      (by
        rw [hmf]
        exact hnd.sublist (List.filter_sublist _))
      hhs₂
      (by
        intro x hx
        rw [hmf, List.mem_filter]
        refine ⟨hmem x (List.mem_cons_of_mem h hx), ?_⟩
        simp only [decide_eq_true_eq]
        exact fun he => hnotin (he ▸ hx))
      (by
        rw [hmf]
        exact hperm.filter _)
    show popAll hs (ring.filter (fun p => decide (p.1 ≠ h)))
        (sorted.filter (fun x => decide (x ≠ h))) = _
    rw [step, List.filter_filter, List.filter_filter]
    have hcong : ∀ (a : Nat),
        (decide (a ∉ hs) && decide (a ≠ h)) = decide (a ∉ h :: hs) := by
      intro a
      by_cases h1 : a = h <;> by_cases h2 : a ∈ hs <;> simp [h1, h2, List.mem_cons]
    congr 1
    rw [Prod.mk.injEq]
    exact ⟨List.filter_congr (fun a _ => hcong a.1), List.filter_congr (fun a _ => hcong a)⟩

theorem addFold_char (n : String) (hs : List Nat) :
    ∀ (ring : List (Nat × String)) (sorted : List Nat)
      (nodesPre : List (String × List Nat)) (acc : List Nat),
      n ∉ nodesPre.map Prod.fst → hs.Nodup →
      (∀ h ∈ hs, h ∉ ring.map Prod.fst) → (∀ h ∈ hs, h ∉ sorted) →
      sorted.Pairwise (· < ·) →
      (hs.foldl (ConsistentHash.addPoint n) ⟨ring, sorted, nodesPre ++ [(n, acc)]⟩).ring
          = ring ++ hs.map (fun h => (h, n)) ∧
      (hs.foldl (ConsistentHash.addPoint n)
          ⟨ring, sorted, nodesPre ++ [(n, acc)]⟩).sorted_keys.Perm (sorted ++ hs) ∧
      (hs.foldl (ConsistentHash.addPoint n)
          ⟨ring, sorted, nodesPre ++ [(n, acc)]⟩).sorted_keys.Pairwise (· < ·) ∧
      (hs.foldl (ConsistentHash.addPoint n) ⟨ring, sorted, nodesPre ++ [(n, acc)]⟩).nodes
          = nodesPre ++ [(n, acc ++ hs)] := by
  induction hs with
  | nil =>
    intro ring sorted nodesPre acc _ _ _ _ hsort
    exact ⟨by simp, by simp, hsort, by simp⟩
  | cons h hs ih =>
    intro ring sorted nodesPre acc hn hnd hring hsorted hsort
    obtain ⟨hh, hnd₂⟩ := List.nodup_cons.mp hnd
    have hlook : dictLookup n (nodesPre ++ [(n, acc)]) = some acc := by
      rw [dictLookup_append_of_not_mem _ hn]
      simp [dictLookup]
    have hstep : ConsistentHash.addPoint n ⟨ring, sorted, nodesPre ++ [(n, acc)]⟩ h
        = ⟨ring ++ [(h, n)], insort h sorted, nodesPre ++ [(n, acc ++ [h])]⟩ := by
      show (⟨dictInsert h n ring, insort h sorted,
        dictInsert n (((dictLookup n (nodesPre ++ [(n, acc)])).getD []) ++ [h])
          (nodesPre ++ [(n, acc)])⟩ : ConsistentHash) = _
      rw [hlook, dictInsert_of_not_mem n (hring h (List.mem_cons_self h hs)),
        dictInsert_append_of_not_mem _ _ hn]
      simp [dictInsert]
    rw [List.foldl_cons, hstep]
    have step := ih (ring ++ [(h, n)]) (insort h sorted) nodesPre (acc ++ [h]) hn hnd₂
      (by
        intro x hx
        simp only [List.map_append, List.mem_append, List.map_cons, List.map_nil,
          List.mem_singleton, not_or]
        exact ⟨hring x (List.mem_cons_of_mem h hx), fun he => hh (he ▸ hx)⟩)
      (by
        intro x hx
        rw [mem_insort]
        push_neg
        exact ⟨fun he => hh (he ▸ hx), hsorted x (List.mem_cons_of_mem h hx)⟩)
      (insort_pairwise_lt hsort (hsorted h (List.mem_cons_self h hs)))
    refine ⟨?_, ?_, step.2.2.1, ?_⟩
    · rw [step.1]
      simp
    · refine step.2.1.trans ?_
      refine ((insort_perm h sorted).append_right hs).trans ?_
      exact List.perm_middle.symm
    · rw [step.2.2.2]
      simp

theorem add_node_char (hash_func : String → Nat) (s : ConsistentHash) (n : String) (w : Int)
    (hmem : dictContains n s.nodes = false)
    (hnd : (virtual_hashes hash_func n w).Nodup)
    (hring : ∀ h ∈ virtual_hashes hash_func n w, h ∉ s.ring.map Prod.fst)
    (hsorted : ∀ h ∈ virtual_hashes hash_func n w, h ∉ s.sorted_keys)
    (hsort : s.sorted_keys.Pairwise (· < ·)) :
    (ConsistentHash.add_node hash_func s n w).ring
        = s.ring ++ (virtual_hashes hash_func n w).map (fun h => (h, n)) ∧
    (ConsistentHash.add_node hash_func s n w).sorted_keys.Perm
        (s.sorted_keys ++ virtual_hashes hash_func n w) ∧
    (ConsistentHash.add_node hash_func s n w).sorted_keys.Pairwise (· < ·) ∧
    (ConsistentHash.add_node hash_func s n w).nodes
        = s.nodes ++ [(n, virtual_hashes hash_func n w)] := by
  have hn : n ∉ s.nodes.map Prod.fst := (dictContains_eq_false n s.nodes).mp hmem
  have hinit : dictInsert n ([] : List Nat) s.nodes = s.nodes ++ [(n, [])] :=
    dictInsert_of_not_mem _ hn
  have hbody := addFold_char n (virtual_hashes hash_func n w) s.ring s.sorted_keys
    s.nodes [] hn hnd hring hsorted hsort
  rw [ConsistentHash.add_node, if_neg (by rw [hmem]; exact Bool.false_ne_true)]
  have hstart : ({ s with nodes := dictInsert n [] s.nodes } : ConsistentHash)
      = ⟨s.ring, s.sorted_keys, s.nodes ++ [(n, [])]⟩ := by
    rw [← hinit]
  rw [hstart]
  simpa using hbody

/-- The data-model invariant of the ring (spec section 3): `sorted_keys` is
strictly ascending (hence duplicate-free), is a permutation of the keys of
`ring`, the node names are unique, and the ring keys are exactly the
virtual points recorded per node. -/
structure RingWF (s : ConsistentHash) : Prop where
  sorted_lt : s.sorted_keys.Pairwise (· < ·)
  sorted_perm : s.sorted_keys.Perm (s.ring.map Prod.fst)
  nodes_nodup : (s.nodes.map Prod.fst).Nodup
  ring_join : (s.ring.map Prod.fst).Perm (s.nodes.map Prod.snd).flatten

theorem ringWF_init : RingWF ConsistentHash.init :=
  ⟨List.Pairwise.nil, List.Perm.refl _, List.nodup_nil, List.Perm.refl _⟩

theorem map_fst_map_pair (n : String) (l : List Nat) :
    (l.map (fun h => (h, n))).map Prod.fst = l := by
  induction l with
  | nil => rfl
  | cons a l ih => simp [ih]

theorem ringWF_add (hash_func : String → Nat) (s : ConsistentHash)
    (n : String) (w : Int) (hwf : RingWF s)
    (hcf : collisionFree hash_func s n w = true) :
    RingWF (ConsistentHash.add_node hash_func s n w) := by
  by_cases hmem : dictContains n s.nodes
  · rw [ConsistentHash.add_node, if_pos hmem]
    exact hwf
  · have hmem' : dictContains n s.nodes = false := by
      revert hmem
      cases dictContains n s.nodes <;> simp
    have hn : n ∉ s.nodes.map Prod.fst := (dictContains_eq_false n s.nodes).mp hmem'
    rw [collisionFree, Bool.and_eq_true] at hcf
    have hnd : (virtual_hashes hash_func n w).Nodup := of_decide_eq_true hcf.1
    have hring : ∀ h ∈ virtual_hashes hash_func n w, h ∉ s.ring.map Prod.fst :=
      of_decide_eq_true hcf.2
    have hsorted : ∀ h ∈ virtual_hashes hash_func n w, h ∉ s.sorted_keys := by
      intro h hh hc
      exact hring h hh (hwf.sorted_perm.subset hc)
    obtain ⟨hr, hp, hlt, hnodes⟩ := add_node_char hash_func s n w hmem' hnd hring
      hsorted hwf.sorted_lt
    refine ⟨hlt, ?_, ?_, ?_⟩
    · rw [hr]
      refine hp.trans ?_
      rw [List.map_append]
      refine (hwf.sorted_perm.append_right _).trans ?_
      rw [map_fst_map_pair n (virtual_hashes hash_func n w)]
    · rw [hnodes, List.map_append]
      refine List.Nodup.append hwf.nodes_nodup (List.nodup_singleton n) ?_
      rw [List.disjoint_left]
      intro a ha hb
      simp only [List.map_cons, List.map_nil, List.mem_singleton] at hb
      exact hn (hb ▸ ha)
    · rw [hr, hnodes]
      rw [List.map_append, map_fst_map_pair n (virtual_hashes hash_func n w),
        List.map_append, List.flatten_append]
      have h₂ : (List.map Prod.snd [(n, virtual_hashes hash_func n w)]).flatten
          = virtual_hashes hash_func n w := by simp
      rw [h₂]
      exact hwf.ring_join.append_right _

theorem ringWF_remove (s : ConsistentHash) (n : String) (s₁ : ConsistentHash)
    (hwf : RingWF s) (hrem : ConsistentHash.remove_node s n = some s₁) :
    RingWF s₁ := by
  rw [ConsistentHash.remove_node] at hrem
  split at hrem
  · cases hrem
    exact hwf
  · rename_i hs hlook
    split at hrem
    · cases hrem
    · rename_i pr ring₁ sorted₁ hpa
      split at hrem
      · cases hrem
      · rename_i nodes₁ hdp
        cases hrem
        obtain ⟨A, B, hsplit, hA, hB, hpop⟩ := dictPop_split hwf.nodes_nodup hlook
        have hsortnd : s.sorted_keys.Nodup :=
          hwf.sorted_lt.imp (fun hlt => Nat.ne_of_lt hlt)
        have hringnd : (s.ring.map Prod.fst).Nodup := hsortnd.perm hwf.sorted_perm
        have hflat : (s.nodes.map Prod.snd).flatten
            = (A.map Prod.snd).flatten ++ (hs ++ (B.map Prod.snd).flatten) := by
          rw [hsplit]
          simp
        have hflatnd :
            ((A.map Prod.snd).flatten ++ (hs ++ (B.map Prod.snd).flatten)).Nodup := by
          rw [← hflat]
          exact hringnd.perm hwf.ring_join
        obtain ⟨hfAnd, hmidnd, hdisjA⟩ := List.nodup_append.mp hflatnd
        obtain ⟨hhsnd, hfBnd, hdisjhsB⟩ := List.nodup_append.mp hmidnd
        have hsubset : ∀ h ∈ hs, h ∈ s.ring.map Prod.fst := by
          intro h hh
          refine hwf.ring_join.symm.subset ?_
          rw [hflat]
          exact List.mem_append_right _ (List.mem_append_left _ hh)
        have hfilters := popAll_eq_filter hs s.ring s.sorted_keys hringnd hhsnd
          hsubset hwf.sorted_perm
        rw [hpa] at hfilters
        injection hfilters with hpair
        rw [Prod.mk.injEq] at hpair
        obtain ⟨hr₁, hs₁⟩ := hpair
        have hn₁ : nodes₁ = A ++ B := by
          rw [hdp] at hpop
          injection hpop
        subst hr₁ hs₁ hn₁
        have hmf : (List.filter (fun p => decide (p.1 ∉ hs)) s.ring).map Prod.fst
            = (s.ring.map Prod.fst).filter (fun x => decide (x ∉ hs)) :=
          map_fst_filter_key (fun x => decide (x ∉ hs)) s.ring
        refine ⟨?_, ?_, ?_, ?_⟩
        · exact hwf.sorted_lt.sublist (List.filter_sublist _)
        · rw [hmf]
          exact hwf.sorted_perm.filter _
        · have hsub : List.Sublist ((A ++ B).map Prod.fst) (s.nodes.map Prod.fst) := by
            rw [hsplit, List.map_append, List.map_append, List.map_cons]
            exact List.Sublist.append_left (List.sublist_cons_self _ _) _
          exact hwf.nodes_nodup.sublist hsub
        · rw [hmf, List.map_append, List.flatten_append]
          refine (hwf.ring_join.filter _).trans ?_
          rw [hflat, List.filter_append, List.filter_append]
          have hfA : (A.map Prod.snd).flatten.filter (fun x => decide (x ∉ hs))
              = (A.map Prod.snd).flatten := by
            refine List.filter_eq_self.mpr (fun a ha => ?_)
            simp only [decide_eq_true_eq]
            intro hc
            exact (List.disjoint_left.mp hdisjA) ha (List.mem_append_left _ hc)
          have hfhs : hs.filter (fun x => decide (x ∉ hs)) = [] := by
            refine List.filter_eq_nil_iff.mpr (fun a ha => ?_)
            simp only [decide_eq_true_eq, Decidable.not_not]
            exact ha
          have hfB : (B.map Prod.snd).flatten.filter (fun x => decide (x ∉ hs))
              = (B.map Prod.snd).flatten := by
            refine List.filter_eq_self.mpr (fun a ha => ?_)
            simp only [decide_eq_true_eq]
            intro hc
            exact (List.disjoint_left.mp hdisjhsB) hc ha
          rw [hfA, hfhs, hfB]
          simp

theorem ringWF_applyOpsOk (hash_func : String → Nat) :
    ∀ (ops : List RingOp) (s t : ConsistentHash),
      RingWF s → applyOpsOk hash_func s ops = some t → RingWF t := by
  intro ops
  induction ops with
  | nil =>
    intro s t hwf h
    rw [applyOpsOk] at h
    cases h
    exact hwf
  | cons op ops ih =>
    intro s t hwf h
    cases op with
    | addNode n w =>
      rw [applyOpsOk] at h
      by_cases hcf : collisionFree hash_func s n w = true
      · rw [if_pos hcf] at h
        exact ih _ _ (ringWF_add hash_func s n w hwf hcf) h
      · rw [if_neg hcf] at h
        cases h
    | removeNode n =>
      rw [applyOpsOk] at h
      cases hrem : ConsistentHash.remove_node s n with
      | none =>
        rw [hrem] at h
        cases h
      | some s₁ =>
        rw [hrem] at h
        exact ih _ _ (ringWF_remove s n s₁ hwf hrem) h

theorem remove_node_eq (s : ConsistentHash) (n : String) (hashes : List Nat)
    (h : dictLookup n s.nodes = some hashes)
    (rs : List (Nat × String) × List Nat)
    (hpa : popAll hashes s.ring s.sorted_keys = some rs)
    (nd : List (String × List Nat)) (hdp : dictPop n s.nodes = some nd) :
    ConsistentHash.remove_node s n = some ⟨rs.1, rs.2, nd⟩ := by
  rw [ConsistentHash.remove_node]
  split
  · rename_i hnone
    rw [h] at hnone
    cases hnone
  · rename_i hs hlook
    rw [h] at hlook
    injection hlook with he
    subst he
    split
    · rename_i hnone
      rw [hpa] at hnone
      cases hnone
    · rename_i pr r₁ s₂ hpa₁
      rw [hpa] at hpa₁
      injection hpa₁ with he
      subst he
      split
      · rename_i hnone
        rw [hdp] at hnone
        cases hnone
      · rename_i nd₁ hdp₁
        rw [hdp] at hdp₁
        injection hdp₁ with he
        subst he
        rfl

theorem add_remove_roundtrip (hash_func : String → Nat) (n : String) (w : Int)
    (hnd : (virtual_hashes hash_func n w).Nodup) :
    ConsistentHash.remove_node
        (ConsistentHash.add_node hash_func ConsistentHash.init n w) n
      = some ConsistentHash.init := by
  obtain ⟨hr, hp, hlt, hnodes⟩ := add_node_char hash_func ConsistentHash.init n w
    rfl hnd (by simp [ConsistentHash.init]) (by simp [ConsistentHash.init])
    List.Pairwise.nil
  rw [show ConsistentHash.init.sorted_keys = [] from rfl, List.nil_append] at hp
  rw [show ConsistentHash.init.ring = [] from rfl, List.nil_append] at hr
  rw [show ConsistentHash.init.nodes = [] from rfl, List.nil_append] at hnodes
  set t := ConsistentHash.add_node hash_func ConsistentHash.init n w with ht
  set vh := virtual_hashes hash_func n w with hvh
  have hkeys : t.ring.map Prod.fst = vh := by
    rw [hr, map_fst_map_pair]
  have hlook : dictLookup n t.nodes = some vh := by
    rw [hnodes]
    simp [dictLookup]
  have hfr : t.ring.filter (fun p => decide (p.1 ∉ vh)) = [] := by
    refine List.filter_eq_nil_iff.mpr (fun p hp₁ => ?_)
    simp only [decide_eq_true_eq, Decidable.not_not]
    rw [← hkeys]
    exact List.mem_map_of_mem Prod.fst hp₁
  have hfs : t.sorted_keys.filter (fun x => decide (x ∉ vh)) = [] := by
    refine List.filter_eq_nil_iff.mpr (fun x hx => ?_)
    simp only [decide_eq_true_eq, Decidable.not_not]
    exact hp.subset hx
  have hpa : popAll vh t.ring t.sorted_keys = some ([], []) := by
    rw [popAll_eq_filter vh t.ring t.sorted_keys (by rw [hkeys]; exact hnd) hnd
      (by intro x hx; rw [hkeys]; exact hx) (by rw [hkeys]; exact hp), hfr, hfs]
  have hdp : dictPop n t.nodes = some [] := by
    rw [hnodes]
    simp [dictPop]
  exact remove_node_eq t n vh hlook ([], []) hpa [] hdp

/-- Spec-side index selection for `resolve` (spec section 4.1): the smallest
index whose value is at least the key hash, `none` when every ring value is
below the hash (in which case the resolver wraps to index 0). -/
def first_ge (h : Nat) : List Nat → Option Nat
  | [] => none
  | y :: ys => if h ≤ y then some 0 else (first_ge h ys).map Nat.succ

/-- Spec-side resolver, written from the claim text of `resolve`: empty ring
returns none; otherwise pick the smallest index whose ring value is at least
the hash of the key, wrapping to the first ring point when the hash exceeds
the maximum, and return the owner of that ring position. -/
def resolve_spec (hash_func : String → Nat) (s : ConsistentHash) (key : String) :
    Option String :=
  if s.sorted_keys.isEmpty then none
  else
    match first_ge (hash_func key) s.sorted_keys with
    | some j => (s.sorted_keys.get? j).bind (fun hv => dictLookup hv s.ring)
    | none => (s.sorted_keys.get? 0).bind (fun hv => dictLookup hv s.ring)

theorem bisect_left_of_first_ge_none {h : Nat} {l : List Nat}
    (hsort : l.Pairwise (· < ·)) (hfg : first_ge h l = none) :
    bisect_left h l = l.length := by
  induction l with
  | nil => rfl
  | cons y ys ih =>
    rw [first_ge] at hfg
    by_cases hy : h ≤ y
    · rw [if_pos hy] at hfg
      cases hfg
    · rw [if_neg hy] at hfg
      rw [bisect_left, List.countP_cons, if_pos (by simpa using Nat.lt_of_not_le hy)]
      rw [List.pairwise_cons] at hsort
      have := ih hsort.2 (by
        cases hfg₁ : first_ge h ys with
        | none => rfl
        | some j =>
          rw [hfg₁] at hfg
          cases hfg)
      rw [bisect_left] at this
      rw [this, List.length_cons]

theorem bisect_left_of_first_ge_some {h : Nat} {l : List Nat} {j : Nat}
    (hsort : l.Pairwise (· < ·)) (hfg : first_ge h l = some j) :
    bisect_left h l = j ∧ j < l.length := by
  induction l generalizing j with
  | nil => cases hfg
  | cons y ys ih =>
    rw [first_ge] at hfg
    rw [List.pairwise_cons] at hsort
    by_cases hy : h ≤ y
    · rw [if_pos hy] at hfg
      injection hfg with he
      subst he
      refine ⟨?_, Nat.succ_pos _⟩
      rw [bisect_left, List.countP_cons, if_neg (by simpa using Nat.not_lt_of_le hy)]
      have hz : ys.countP (fun z => decide (z < h)) = 0 :=
        List.countP_eq_zero.mpr (fun z hz => by
          simp only [decide_eq_true_eq, Nat.not_lt]
          exact Nat.le_trans hy (Nat.le_of_lt (hsort.1 z hz)))
      simpa using hz
    · rw [if_neg hy] at hfg
      cases hfg₁ : first_ge h ys with
      | none =>
        rw [hfg₁] at hfg
        cases hfg
      | some j₁ =>
        rw [hfg₁] at hfg
        injection hfg with he
        subst he
        obtain ⟨hb, hlen⟩ := ih hsort.2 hfg₁
        constructor
        · rw [bisect_left, List.countP_cons,
            if_pos (by simpa using Nat.lt_of_not_le hy)]
          unfold bisect_left at hb
          omega
        · simpa using Nat.succ_lt_succ hlen

theorem first_ge_some_spec {h : Nat} {l : List Nat} {j : Nat}
    (hfg : first_ge h l = some j) :
    ∃ v, l.get? j = some v ∧ h ≤ v ∧
      ∀ k, k < j → ∀ v₁, l.get? k = some v₁ → v₁ < h := by
  induction l generalizing j with
  | nil => cases hfg
  | cons y ys ih =>
    rw [first_ge] at hfg
    by_cases hy : h ≤ y
    · rw [if_pos hy] at hfg
      injection hfg with he
      subst he
      exact ⟨y, rfl, hy, fun k hk => absurd hk (Nat.not_lt_zero k)⟩
    · rw [if_neg hy] at hfg
      cases hfg₁ : first_ge h ys with
      | none =>
        rw [hfg₁] at hfg
        cases hfg
      | some j₁ =>
        rw [hfg₁] at hfg
        injection hfg with he
        subst he
        obtain ⟨v, hv, hhv, hbelow⟩ := ih hfg₁
        refine ⟨v, by simpa using hv, hhv, ?_⟩
        intro k hk v₁ hv₁
        cases k with
        | zero =>
          rw [List.get?_cons_zero] at hv₁
          injection hv₁ with he
          subst he
          exact Nat.lt_of_not_le hy
        | succ k₁ =>
          rw [List.get?_cons_succ] at hv₁
          exact hbelow k₁ (Nat.lt_of_succ_lt_succ hk) v₁ hv₁

theorem first_ge_none_spec {h : Nat} {l : List Nat}
    (hfg : first_ge h l = none) :
    ∀ k v, l.get? k = some v → v < h := by
  induction l with
  | nil =>
    intro k v hv
    cases k <;> cases hv
  | cons y ys ih =>
    rw [first_ge] at hfg
    by_cases hy : h ≤ y
    · rw [if_pos hy] at hfg
      cases hfg
    · rw [if_neg hy] at hfg
      intro k v hv
      cases k with
      | zero =>
        rw [List.get?_cons_zero] at hv
        injection hv with he
        subst he
        exact Nat.lt_of_not_le hy
      | succ k₁ =>
        rw [List.get?_cons_succ] at hv
        refine ih ?_ k₁ v hv
        cases hfg₁ : first_ge h ys with
        | none => rfl
        | some j =>
          rw [hfg₁] at hfg
          cases hfg

theorem get_node_eval (hash_func : String → Nat) (s : ConsistentHash) (key : String)
    (hne : s.ring.isEmpty = false) {rk : Nat} {node : String}
    (hget : s.sorted_keys.get?
        (bisect_left (hash_func key) s.sorted_keys % s.sorted_keys.length) = some rk)
    (hlk : dictLookup rk s.ring = some node) :
    ConsistentHash.get_node hash_func s key = some (some node) := by
  rw [ConsistentHash.get_node, if_neg (by simp [hne])]
  split
  · rename_i hnone
    rw [hget] at hnone
    cases hnone
  · rename_i rk₁ hget₁
    rw [hget] at hget₁
    injection hget₁ with he
    subst he
    rw [hlk]

theorem resolve_spec_eval_ge (hash_func : String → Nat) (s : ConsistentHash) (key : String)
    (hne : s.sorted_keys.isEmpty = false) {j rk : Nat} {node : String}
    (hfg : first_ge (hash_func key) s.sorted_keys = some j)
    (hget : s.sorted_keys.get? j = some rk)
    (hlk : dictLookup rk s.ring = some node) :
    resolve_spec hash_func s key = some node := by
  rw [resolve_spec, if_neg (by simp [hne])]
  split
  · rename_i j₁ hfg₁
    rw [hfg] at hfg₁
    injection hfg₁ with he
    subst he
    rw [hget, Option.some_bind, hlk]
  · rename_i hfg₁
    rw [hfg] at hfg₁
    cases hfg₁

theorem resolve_spec_eval_wrap (hash_func : String → Nat) (s : ConsistentHash) (key : String)
    (hne : s.sorted_keys.isEmpty = false) {rk : Nat} {node : String}
    (hfg : first_ge (hash_func key) s.sorted_keys = none)
    (hget : s.sorted_keys.get? 0 = some rk)
    (hlk : dictLookup rk s.ring = some node) :
    resolve_spec hash_func s key = some node := by
  rw [resolve_spec, if_neg (by simp [hne])]
  split
  · rename_i j₁ hfg₁
    rw [hfg] at hfg₁
    cases hfg₁
  · rw [hget, Option.some_bind, hlk]

theorem dictLookup_isSome_of_mem {β : Type} {k : Nat} {l : List (Nat × β)}
    (hk : k ∈ l.map Prod.fst) : ∃ v, dictLookup k l = some v := by
  cases hv : dictLookup k l with
  | none => exact absurd ((dictLookup_eq_none k l).mp hv) (by simpa using hk)
  | some v => exact ⟨v, rfl⟩

theorem djb2_hash_lt (key : String) : djb2_hash key < 2 ^ 32 :=
  Nat.lt_of_le_of_lt (Nat.and_le_right) (by norm_num)

theorem fnv1a_foldl_lt (l : List Char) (a : Nat) (ha : a < 2 ^ 32) :
    l.foldl (fun h c => ((h ^^^ c.toNat) * 16777619) &&& 0xFFFFFFFF) a < 2 ^ 32 := by
  induction l generalizing a with
  | nil => exact ha
  | cons c cs ih =>
    rw [List.foldl_cons]
    exact ih _ (Nat.lt_of_le_of_lt (Nat.and_le_right) (by norm_num))

theorem fnv1a_hash_lt (key : String) : fnv1a_hash key < 2 ^ 32 :=
  fnv1a_foldl_lt key.data 2166136261 (by norm_num)

theorem simple_hash_replicate (n : Nat) (c : Char) :
    simple_hash (String.mk (List.replicate n c)) = n * c.toNat := by
  show ((List.replicate n c).map Char.toNat).sum = n * c.toNat
  rw [List.map_replicate, List.sum_replicate, smul_eq_mul]

/-! Concrete fixtures used by counterexamples and witnesses -/

/-- A constant hash function: every virtual point collides on 0. -/
def hfZero : String → Nat := fun _ => 0

/-- A positional hash function that distinguishes all the short virtual-node
names used in the witnesses (base-256 digit encoding with a leading 1). -/
def hfDigits : String → Nat :=
  fun s => s.data.foldl (fun a c => a * 256 + c.toNat) 1

/-- A pool state holding one server named `a` with accumulated metrics:
5 requests, 2 errors, one response-time sample. -/
def c1_old_server : Server :=
  { name := "a", address := "h1", port := 1, weight := 1, healthy := true
    request_count := 5, error_count := 2, response_times := [1] }

def c1_pool : LoadBalancer :=
  ⟨⟨[(7, "a")], [7], [("a", [7])]⟩, [("a", c1_old_server)]⟩

/-- A pool whose ring still names a departed server `ghost` (owning the
lowest ring position) next to two live healthy servers `b` and `c`. -/
def c2_pool : LoadBalancer :=
  ⟨⟨[(10, "ghost"), (20, "b"), (30, "c")], [10, 20, 30],
      [("ghost", [10]), ("b", [20]), ("c", [30])]⟩,
    [("b", Server.init "b" "hb" 1 1), ("c", Server.init "c" "hc" 2 1)]⟩

/-! Claim C1 -/

/-- C1 counterexample: re-registering name `a` (5 requests, 2 errors, one
response sample recorded) with a freshly constructed record does NOT leave
the metrics unchanged — the stored record afterwards has the new record's
zero request count, zero error count and empty response-time window,
because `add_server` stores the passed record wholesale
(`self.servers[server.name] = server`). -/
theorem c1_reregistration_resets_metrics :
    (dictLookup "a" c1_pool.servers).map Server.request_count = some 5 ∧
    (dictLookup "a" c1_pool.servers).map Server.error_count = some 2 ∧
    (dictLookup "a" c1_pool.servers).map Server.response_times = some [1] ∧
    (dictLookup "a" (LoadBalancer.add_server hfZero c1_pool
        (Server.init "a" "h2" 2 3)).servers).map Server.request_count = some 0 ∧
    (dictLookup "a" (LoadBalancer.add_server hfZero c1_pool
        (Server.init "a" "h2" 2 3)).servers).map Server.error_count = some 0 ∧
    (dictLookup "a" (LoadBalancer.add_server hfZero c1_pool
        (Server.init "a" "h2" 2 3)).servers).map Server.response_times = some [] := by
  refine ⟨rfl, rfl, rfl, rfl, rfl, rfl⟩

/-- C1 (amended): for every pool already containing a server named `n` (with
`n` also on the ring), `add_server` with a record named `n` replaces the
stored record wholesale — the stored record becomes the new record, so the
metrics are the NEW record's (zero for a freshly constructed record), and
the hash ring is left entirely unchanged (`add_node` is a no-op for an
existing name, so not even the new weight takes effect). -/
theorem c1_add_server_replaces_record_wholesale (hash_func : String → Nat)
    (lb : LoadBalancer) (server old : Server)
    (_hold : dictLookup server.name lb.servers = some old)
    (hnode : dictContains server.name lb.consistent_hash.nodes = true) :
    dictLookup server.name (LoadBalancer.add_server hash_func lb server).servers
        = some server ∧
    (LoadBalancer.add_server hash_func lb server).servers
        = dictInsert server.name server lb.servers ∧
    (LoadBalancer.add_server hash_func lb server).consistent_hash
        = lb.consistent_hash := by
  refine ⟨dictLookup_dictInsert_self _ _ _, rfl, ?_⟩
  show ConsistentHash.add_node hash_func lb.consistent_hash server.name server.weight = _
  rw [ConsistentHash.add_node, if_pos hnode]

/-- Witness for C1: the amended theorem applied to the concrete pool. -/
theorem c1_add_server_replaces_record_wholesale_witness :
    dictLookup "a" (LoadBalancer.add_server hfZero c1_pool
        (Server.init "a" "h2" 2 3)).servers = some (Server.init "a" "h2" 2 3) :=
  (c1_add_server_replaces_record_wholesale hfZero c1_pool
    (Server.init "a" "h2" 2 3) c1_old_server rfl rfl).1

/-! Claim C2 -/

/-- C2 counterexample: in `c2_pool` the ring resolves key `"k"` to the stale
name `ghost`; `get_server` returns `None` immediately even though the
fallback candidate walk `get_nodes(key, len(servers))` would have yielded
the healthy registered server `b` — the claimed fallback never runs. -/
theorem c2_stale_ring_skips_fallback :
    LoadBalancer.get_server hfZero c2_pool "k" = some none ∧
    ConsistentHash.get_nodes hfZero c2_pool.consistent_hash "k"
        ((c2_pool.servers.length : Int)) = some ["ghost", "b"] ∧
    (dictLookup "b" c2_pool.servers).map Server.healthy = some true := by
  refine ⟨by decide, by decide, rfl⟩

/-- C2 (amended): when the ring resolves a key to a name absent from the
server mapping, `get_server` does not crash, but it also does not fall back
to the candidate walk: it returns `None` immediately
(`if not server_name or server_name not in self.servers: return None`). -/
theorem c2_stale_ring_returns_none_without_crash (hash_func : String → Nat)
    (lb : LoadBalancer) (key name : String)
    (hres : ConsistentHash.get_node hash_func lb.consistent_hash key
        = some (some name))
    (hstale : dictLookup name lb.servers = none) :
    LoadBalancer.get_server hash_func lb key = some none := by
  rw [LoadBalancer.get_server]
  split
  · rename_i hnone
    rw [hres] at hnone
    cases hnone
  · rfl
  · rename_i name₁ hsome
    rw [hres] at hsome
    injection hsome with he
    injection he with he₁
    subst he₁
    by_cases hname : name = ""
    · rw [if_pos hname]
    · rw [if_neg hname, hstale]

/-- Witness for C2: the amended theorem applied to the concrete stale pool. -/
theorem c2_stale_ring_returns_none_without_crash_witness :
    LoadBalancer.get_server hfZero c2_pool "k" = some none :=
  c2_stale_ring_returns_none_without_crash hfZero c2_pool "k" "ghost"
    (by decide) rfl

/-! Claim C3 -/

set_option maxRecDepth 10000 in
set_option maxHeartbeats 1000000 in
/-- C3 counterexample: with the constant hash function every virtual point
collides, and `addNode("a", 1)` followed by `removeNode("a")` RAISES inside
`remove_node` (the second `self.ring.pop(hash_value)` hits a missing key),
instead of returning the ring to empty without error. -/
theorem c3_roundtrip_raises_on_collision :
    ConsistentHash.remove_node
        (ConsistentHash.add_node hfZero ConsistentHash.init "a" 1) "a" = none := by
  decide

/-- C3 (amended): provided the `weight * 100` virtual-point hashes are
pairwise distinct (true of any hash function injective on the virtual-node
names; false e.g. for a constant hash), `addNode(id, w)` then
`removeNode(id)` on an empty ring returns the ring to empty — length-0
sequence, size-0 mapping — without raising, and `resolve` on any key then
returns none. -/
theorem c3_roundtrip_empties_ring (hash_func : String → Nat) (n : String) (w : Int)
    (_hw : 0 < w) (hnd : (virtual_hashes hash_func n w).Nodup) :
    ConsistentHash.remove_node
        (ConsistentHash.add_node hash_func ConsistentHash.init n w) n
      = some ConsistentHash.init ∧
    ConsistentHash.init.sorted_keys.length = 0 ∧
    ConsistentHash.init.ring.length = 0 ∧
    ∀ key, ConsistentHash.get_node hash_func ConsistentHash.init key = some none :=
  ⟨add_remove_roundtrip hash_func n w hnd, rfl, rfl, fun _ => rfl⟩

set_option maxRecDepth 10000 in
set_option maxHeartbeats 1000000 in
/-- Witness for C3: the amended theorem at weight 1 with a hash function
that separates the 100 virtual names `a:0` … `a:99`. -/
theorem c3_roundtrip_empties_ring_witness :
    ConsistentHash.remove_node
        (ConsistentHash.add_node hfDigits ConsistentHash.init "a" 1) "a"
      = some ConsistentHash.init :=
  (c3_roundtrip_empties_ring hfDigits "a" 1 (by decide) (by decide)).1

/-! Claim C4 -/

set_option maxRecDepth 10000 in
set_option maxHeartbeats 1000000 in
/-- C4 counterexample: executing the one-operation sequence
`addNode("a", 1)` with the constant hash function leaves `sorted_keys` with
100 (all equal) entries while the mapping has a single key — the ordered
sequence is NOT the (duplicate-free) set of keys of the mapping, so a
virtual-point collision does corrupt the ordered-sequence invariant. -/
theorem c4_collision_corrupts_sorted_keys :
    (ConsistentHash.add_node hfZero ConsistentHash.init "a" 1).sorted_keys.length = 100 ∧
    (ConsistentHash.add_node hfZero ConsistentHash.init "a" 1).ring.length = 1 ∧
    ¬ (ConsistentHash.add_node hfZero ConsistentHash.init "a" 1).sorted_keys.Nodup := by
  refine ⟨by decide, by decide, by decide⟩

/-- C4 (amended): after every sequence of `addNode` / `removeNode`
operations from the empty ring in which no virtual-point collision occurs
(each `addNode` inserts pairwise-distinct hashes absent from the ring, as
checked by `collisionFree`) and no removal raises, the ordered sequence is
strictly ascending — hence duplicate-free — and is exactly the set of keys
of the mapping (a permutation of them). -/
theorem c4_sorted_keys_invariant (hash_func : String → Nat) (ops : List RingOp)
    (t : ConsistentHash)
    (hrun : applyOpsOk hash_func ConsistentHash.init ops = some t) :
    t.sorted_keys.Pairwise (· < ·) ∧ t.sorted_keys.Perm (t.ring.map Prod.fst) := by
  have hwf := ringWF_applyOpsOk hash_func ops ConsistentHash.init t ringWF_init hrun
  exact ⟨hwf.sorted_lt, hwf.sorted_perm⟩

set_option maxRecDepth 10000 in
set_option maxHeartbeats 1000000 in
/-- Witness for C4: a collision-free two-operation run. -/
theorem c4_sorted_keys_invariant_witness :
    (ConsistentHash.add_node hfDigits ConsistentHash.init "a" 1).sorted_keys.Pairwise
        (· < ·) ∧
    (ConsistentHash.add_node hfDigits ConsistentHash.init "a" 1).sorted_keys.Perm
        ((ConsistentHash.add_node hfDigits ConsistentHash.init "a" 1).ring.map
          Prod.fst) := by
  refine c4_sorted_keys_invariant hfDigits [RingOp.addNode "a" 1] _ ?_
  rw [applyOpsOk, if_pos (by decide), applyOpsOk]

/-! Claim C5 -/

/-- C5: on every ring state satisfying the data-model invariant
(`sorted_keys` ascending and a permutation of the ring keys), `get_node`
returns none on an empty ring, and on a non-empty ring equals the
spec-side resolver: take the smallest index whose ring value is at least
the key hash (`first_ge`, whose minimality is re-stated below), wrap to
index 0 when the hash is past the maximum, and return the owner of that
ring position.  Determinism over repeated calls is immediate because the
embedded `get_node` is a pure function of the ring state and the key. -/
theorem c5_get_node_follows_spec (hash_func : String → Nat) (s : ConsistentHash)
    (key : String) (hsort : s.sorted_keys.Pairwise (· < ·))
    (hperm : s.sorted_keys.Perm (s.ring.map Prod.fst)) :
    ConsistentHash.get_node hash_func s key
        = some (resolve_spec hash_func s key) ∧
    (s.ring = [] → ConsistentHash.get_node hash_func s key = some none) ∧
    (∀ j, first_ge (hash_func key) s.sorted_keys = some j →
      ∃ v, s.sorted_keys.get? j = some v ∧ hash_func key ≤ v ∧
        ∀ k, k < j → ∀ v₁, s.sorted_keys.get? k = some v₁ → v₁ < hash_func key) ∧
    (first_ge (hash_func key) s.sorted_keys = none →
      ∀ k v, s.sorted_keys.get? k = some v → v < hash_func key) := by
  refine ⟨?_, ?_, fun j hj => first_ge_some_spec hj, fun hn => first_ge_none_spec hn⟩
  · have hlenr : s.sorted_keys.length = s.ring.length := by
      rw [hperm.length_eq, List.length_map]
    by_cases hre : s.ring.isEmpty = true
    · have hse : s.sorted_keys.isEmpty = true := by
        rw [List.isEmpty_iff] at hre ⊢
        rw [← List.length_eq_zero, hlenr, hre]
        rfl
      rw [ConsistentHash.get_node, if_pos hre, resolve_spec, if_pos hse]
    · have hre₁ : s.ring.isEmpty = false := by
        revert hre
        cases s.ring.isEmpty <;> simp
      have hrne : s.ring ≠ [] := by
        intro hc
        rw [hc] at hre₁
        cases hre₁
      have hsne : s.sorted_keys ≠ [] := by
        intro hc
        apply hrne
        have hl := hlenr
        rw [hc] at hl
        exact List.length_eq_zero.mp hl.symm
      have hse : s.sorted_keys.isEmpty = false := by
        cases hsk : s.sorted_keys with
        | nil => exact absurd hsk hsne
        | cons x xs => rfl
      have hlen : 0 < s.sorted_keys.length := List.length_pos.mpr hsne
      cases hfg : first_ge (hash_func key) s.sorted_keys with
      | some j =>
        obtain ⟨hb, hlt⟩ := bisect_left_of_first_ge_some hsort hfg
        obtain ⟨v, hv, _, _⟩ := first_ge_some_spec hfg
        have hvmem : v ∈ s.ring.map Prod.fst := hperm.subset (List.get?_mem hv)
        obtain ⟨node, hnode⟩ := dictLookup_isSome_of_mem hvmem
        rw [get_node_eval hash_func s key hre₁
            (by rw [hb, Nat.mod_eq_of_lt hlt]; exact hv) hnode,
          resolve_spec_eval_ge hash_func s key hse hfg hv hnode]
      | none =>
        have hb := bisect_left_of_first_ge_none hsort hfg
        obtain ⟨v, hv⟩ : ∃ a, s.sorted_keys.get? 0 = some a := by
          cases hsk : s.sorted_keys with
          | nil =>
            rw [hsk] at hlen
            simp at hlen
          | cons x xs => exact ⟨x, rfl⟩
        have hvmem : v ∈ s.ring.map Prod.fst := hperm.subset (List.get?_mem hv)
        obtain ⟨node, hnode⟩ := dictLookup_isSome_of_mem hvmem
        rw [get_node_eval hash_func s key hre₁
            (by rw [hb, Nat.mod_self]; exact hv) hnode,
          resolve_spec_eval_wrap hash_func s key hse hfg hv hnode]
  · intro h
    rw [ConsistentHash.get_node, if_pos (by rw [h]; rfl)]

/-- Witness for C5: the refinement at the concrete stale-ring pool state. -/
theorem c5_get_node_follows_spec_witness :
    ConsistentHash.get_node hfZero c2_pool.consistent_hash "k"
      = some (resolve_spec hfZero c2_pool.consistent_hash "k") :=
  (c5_get_node_follows_spec hfZero c2_pool.consistent_hash "k"
    (by decide) (by decide)).1

/-! Claim C6 -/

/-- C6: a failed check zeroes the consecutive-success counter and
increments the consecutive-failure counter; with a positive healthy
threshold, the unhealthy notification fires on a failed check exactly when
the incremented failure counter has reached `unhealthy_threshold`; with the
thresholds (2, 3), two consecutive failures emit no notification and a
third consecutive failure emits the unhealthy notification. -/
theorem c6_failure_hysteresis (hc : HealthChecker) (c : Nat × Nat) :
    (check_tick hc false c).1 = (0, c.2 + 1) ∧
    (1 ≤ hc.healthy_threshold →
      ((check_tick hc false c).2 = some HealthNotification.server_unhealthy ↔
        hc.unhealthy_threshold ≤ ((c.2 + 1 : Nat) : Int))) ∧
    (run_ticks ⟨2, 3⟩ initial_counters [false, false]).2 = [none, none] ∧
    (run_ticks ⟨2, 3⟩ initial_counters [false, false, false]).2
      = [none, none, some HealthNotification.server_unhealthy] := by
  refine ⟨rfl, ?_, by decide, by decide⟩
  intro hht
  have h0 : ¬ hc.healthy_threshold ≤ (((0 : Nat) : Int)) := by
    push_cast
    omega
  show (if hc.healthy_threshold ≤ (((0 : Nat) : Int)) then
        some HealthNotification.server_healthy
      else if hc.unhealthy_threshold ≤ ((c.2 + 1 : Nat) : Int) then
        some HealthNotification.server_unhealthy
      else none) = some HealthNotification.server_unhealthy ↔
      hc.unhealthy_threshold ≤ ((c.2 + 1 : Nat) : Int)
  rw [if_neg h0]
  by_cases hut : hc.unhealthy_threshold ≤ ((c.2 + 1 : Nat) : Int)
  · rw [if_pos hut]
    exact ⟨fun _ => hut, fun _ => rfl⟩
  · rw [if_neg hut]
    constructor
    · intro h
      cases h
    · intro h
      exact absurd h hut

/-- Witness for C6: default thresholds, a third consecutive failure. -/
theorem c6_failure_hysteresis_witness :
    (check_tick ⟨2, 3⟩ false (0, 2)).2 = some HealthNotification.server_unhealthy :=
  ((c6_failure_hysteresis ⟨2, 3⟩ (0, 2)).2.1 (by decide)).mpr (by decide)

/-! Claim C7 -/

/-- C7 (code bug): with `healthy_threshold = 2` and three consecutive
successful checks from fresh counters, the check loop invokes the
healthy-status notification on BOTH the second and the third tick: the loop
notifies whenever the counter is at or above the threshold
(health_check.py lines 168-171), not only on the state-changing transition
tick, contradicting the claim and the docstring of `_on_server_healthy`
("called when a server becomes healthy"). -/
theorem c7_notification_refires_after_transition :
    (run_ticks ⟨2, 3⟩ initial_counters [true, true, true]).2
      = [none, some HealthNotification.server_healthy,
          some HealthNotification.server_healthy] := by
  decide

/-! Claim C8 -/

/-- C8 counterexample: registering weight 0 raises no error anywhere:
`add_node` returns normally, registering the node with an empty
virtual-point list, and `add_server` stores the weight-0 record — there is
no fail-fast validation of non-positive weights in the core. -/
theorem c8_nonpositive_weight_accepted :
    ConsistentHash.add_node hfZero ConsistentHash.init "a" 0
      = ⟨[], [], [("a", [])]⟩ ∧
    (LoadBalancer.add_server hfZero ⟨ConsistentHash.init, []⟩
        (Server.init "a" "h" 1 0)).servers = [("a", Server.init "a" "h" 1 0)] :=
  ⟨rfl, rfl⟩

/-- C8 (amended): a non-positive weight is accepted silently: `add_node`
generates `range(weight * 100) = []` virtual points and registers the node
with an empty point list, and `add_server` stores the record unchecked;
no error is raised and no default weight is substituted. -/
theorem c8_nonpositive_weight_silently_registered (hash_func : String → Nat)
    (n : String) (w : Int) (hw : w ≤ 0) (lb : LoadBalancer) (server : Server) :
    ConsistentHash.add_node hash_func ConsistentHash.init n w
        = ⟨[], [], [(n, [])]⟩ ∧
    virtual_hashes hash_func n w = [] ∧
    dictLookup server.name (LoadBalancer.add_server hash_func lb server).servers
      = some server := by
  have hvh : virtual_hashes hash_func n w = [] := by
    rw [virtual_hashes]
    have h0 : (w * 100).toNat = 0 := by omega
    rw [h0]
    rfl
  refine ⟨?_, hvh, dictLookup_dictInsert_self _ _ _⟩
  rw [ConsistentHash.add_node,
    if_neg (show ¬ (dictContains n ConsistentHash.init.nodes = true) from
      Bool.false_ne_true), hvh]
  rfl

/-- Witness for C8: weight 0. -/
theorem c8_nonpositive_weight_silently_registered_witness :
    ConsistentHash.add_node hfZero ConsistentHash.init "a" 0
      = ⟨[], [], [("a", [])]⟩ :=
  (c8_nonpositive_weight_silently_registered hfZero "a" 0 (by decide)
    ⟨ConsistentHash.init, []⟩ (Server.init "a" "h" 1 0)).1

/-! Claim C9 -/

/-- C9 counterexample: `simple_hash` (selectable by the name `simple`) is
NOT fixed-width: for every claimed bit width there is a key whose hash
value exceeds it — the string of `2 ^ width` letters `a` hashes to
`97 * 2 ^ width`. -/
theorem c9_simple_hash_unbounded :
    ¬ ∃ width : Nat, ∀ key : String, simple_hash key < 2 ^ width := by
  rintro ⟨width, hw⟩
  have h := hw (String.mk (List.replicate (2 ^ width) 'a'))
  rw [simple_hash_replicate] at h
  have hc : ('a').toNat = 97 := rfl
  rw [hc] at h
  have hpos : 0 < 2 ^ width := Nat.pow_pos (by norm_num)
  omega

/-- C9 (amended): the embedded pure hash functions are deterministic
functions of the string key; `djb2_hash` and `fnv1a_hash` always return
values inside `[0, 2^32)`, but `simple_hash` has no fixed width (see the
counterexample); and `get_hash_function` fails with a
named-function-not-found error exactly on names outside the registry. -/
theorem c9_hash_widths_and_unknown_name :
    (∀ key : String, djb2_hash key < 2 ^ 32) ∧
    (∀ key : String, fnv1a_hash key < 2 ^ 32) ∧
    (∀ (mmh3_available : Bool) (name : String),
      name ∉ hash_function_names mmh3_available →
        get_hash_function mmh3_available name
          = Except.error ("Hash function not found: " ++ name)) ∧
    (∀ (mmh3_available : Bool) (name : String),
      name ∈ hash_function_names mmh3_available →
        get_hash_function mmh3_available name = Except.ok ()) := by
  refine ⟨djb2_hash_lt, fnv1a_hash_lt, ?_, ?_⟩
  · intro b name h
    rw [get_hash_function, if_neg h]
  · intro b name h
    rw [get_hash_function, if_pos h]

/-- Witness for C9: an unknown name is rejected, a known one accepted. -/
theorem c9_hash_widths_and_unknown_name_witness :
    get_hash_function false "nope"
        = Except.error ("Hash function not found: " ++ "nope") ∧
    get_hash_function false "djb2" = Except.ok () :=
  ⟨c9_hash_widths_and_unknown_name.2.2.1 false "nope" (by decide),
    c9_hash_widths_and_unknown_name.2.2.2 false "djb2" (by decide)⟩

/-! Claim C10 -/

/-- C10: `get_stats` reports the total server count, healthy and unhealthy
counts summing to the total, request and error totals summed across all
servers, and an error rate that is the guarded quotient — exactly 0
whenever the request total is 0, so no division by zero is possible. -/
theorem c10_get_stats_safe (lb : LoadBalancer) :
    (LoadBalancer.get_stats lb).total_servers = lb.servers.length ∧
    (LoadBalancer.get_stats lb).healthy_servers
        + (LoadBalancer.get_stats lb).unhealthy_servers
      = (LoadBalancer.get_stats lb).total_servers ∧
    (LoadBalancer.get_stats lb).total_requests
      = ((lb.servers.map Prod.snd).map Server.request_count).sum ∧
    (LoadBalancer.get_stats lb).total_errors
      = ((lb.servers.map Prod.snd).map Server.error_count).sum ∧
    ((LoadBalancer.get_stats lb).total_requests = 0 →
      (LoadBalancer.get_stats lb).error_rate = 0) ∧
    (0 < (LoadBalancer.get_stats lb).total_requests →
      (LoadBalancer.get_stats lb).error_rate
        = ((LoadBalancer.get_stats lb).total_errors : Rat)
          / ((LoadBalancer.get_stats lb).total_requests : Rat)) := by
  have hrate : (LoadBalancer.get_stats lb).error_rate
      = if 0 < ((lb.servers.map Prod.snd).map Server.request_count).sum
        then (((lb.servers.map Prod.snd).map Server.error_count).sum : Rat)
          / (((lb.servers.map Prod.snd).map Server.request_count).sum : Rat)
        else 0 := rfl
  refine ⟨rfl, ?_, rfl, rfl, ?_, ?_⟩
  · have h1 : (LoadBalancer.get_stats lb).healthy_servers
        = ((lb.servers.map Prod.snd).filter (fun s => s.healthy)).length := rfl
    have h2 : (LoadBalancer.get_stats lb).unhealthy_servers
        = lb.servers.length
          - ((lb.servers.map Prod.snd).filter (fun s => s.healthy)).length := rfl
    have h3 : (LoadBalancer.get_stats lb).total_servers = lb.servers.length := rfl
    have hle : ((lb.servers.map Prod.snd).filter (fun s => s.healthy)).length
        ≤ lb.servers.length :=
      Nat.le_trans (List.length_filter_le _ _) (Nat.le_of_eq (by simp))
    rw [h1, h2, h3]
    omega
  · intro h
    have h0 : ((lb.servers.map Prod.snd).map Server.request_count).sum = 0 := h
    rw [hrate, if_neg (by omega)]
  · intro h
    have h0 : 0 < ((lb.servers.map Prod.snd).map Server.request_count).sum := h
    rw [hrate, if_pos h0]
    rfl

/-- Witness for C10: the empty pool has error rate 0. -/
theorem c10_get_stats_safe_witness :
    (LoadBalancer.get_stats ⟨ConsistentHash.init, []⟩).error_rate = 0 :=
  (c10_get_stats_safe ⟨ConsistentHash.init, []⟩).2.2.2.2.1 rfl
